import Mathlib

/-!
Verification of the action-deployer repository: a poller that downloads the
latest CI build artifact per configured Job and incrementally synchronizes
its entries onto a deployment directory (diff-based extraction with a
path-traversal guard and temp-file-plus-rename writes), recording the last
synchronized artifact version in a durable ledger file.

The embedding models the pure logic of the source (`main.go` and
`struct.go`): byte contents are `List Nat`, the filesystem and the ledger
are association lists keyed by path strings, external I/O results (HTTP
listing/download, zip opening, zip-entry reads, ledger persistence) are
injected as parameters, and the MurmurHash3 fingerprint from the external
`github.com/twmb/murmur3` library is an arbitrary function parameter
`fp : Bytes → Bytes` (every Lean function is deterministic, which is the
only property the source relies on).
-/

/-- Raw byte content of a file or archive entry (one `Nat` per byte). -/
abbrev Bytes := List Nat

/-- Lookup in an association list keyed by strings (Go map read). -/
def getKV {α : Type} : List (String × α) → String → Option α
  | [], _ => none
  | (q, v) :: rest, p => if q = p then some v else getKV rest p

/-- Update/insert in an association list keyed by strings (Go map write). -/
def setKV {α : Type} : List (String × α) → String → α → List (String × α)
  | [], p, c => [(p, c)]
  | (q, v) :: rest, p, c =>
    if q = p then (p, c) :: rest else (q, v) :: setKV rest p c

/-- Remove a binding from an association list (file removed by rename). -/
def eraseKV {α : Type} : List (String × α) → String → List (String × α)
  | [], _ => []
  | (q, v) :: rest, p => if q = p then rest else (q, v) :: eraseKV rest p

/-- The filesystem, as a map from absolute-or-relative path strings to
complete file contents. Directories are implicit (the source's
`os.MkdirAll` has no observable effect in this model). -/
abbrev FS := List (String × Bytes)

/-- The update ledger: Job key (`Owner.Repo.ArtifactName`) to the
`created_at` timestamp of the last version marked as applied
(source: global `lastUpdate` map, persisted in `log.json`). -/
abbrev Ledger := List (String × Int)

/-- Go map read of `lastUpdate[key]`: a missing key yields the zero
timestamp, modelled as `0`. -/
def ledgerGet (l : Ledger) (k : String) : Int := (getKV l k).getD 0

/-- Split a character list on `/` separators (helper for `filepath.Clean`). -/
def splitSlash : List Char → List Char → List (List Char)
  | [], acc => [acc.reverse]
  | c :: rest, acc =>
    if c = '/' then acc.reverse :: splitSlash rest []
    else splitSlash rest (c :: acc)

/-- The segment-processing core of Go's `filepath.Clean` (unix rules):
drop empty and `.` segments, resolve `..` against the preceding segment,
keep leading `..` segments only for relative paths. The accumulator is in
reverse order. -/
def cleanSegsRev (rooted : Bool) (segs : List (List Char)) : List (List Char) :=
  segs.foldl
    (fun acc seg =>
      if seg = [] ∨ seg = ['.'] then acc
      else if seg = ['.', '.'] then
        match acc with
        | [] => if rooted then [] else [seg]
        | top :: rest => if top = ['.', '.'] then seg :: acc else rest
      else seg :: acc)
    []

/-- Join path segments with `/` (helper for `filepath.Clean`). -/
def joinSlash : List (List Char) → List Char
  | [] => []
  | [s] => s
  | s :: rest => s ++ '/' :: joinSlash rest

/-- Character-list core of Go's `filepath.Clean`. -/
def cleanChars (p : List Char) : List Char :=
  match p with
  | [] => ['.']
  | c :: _ =>
    let rooted := c = '/'
    let body := joinSlash (cleanSegsRev rooted (splitSlash p [])).reverse
    if rooted then '/' :: body
    else if body = [] then ['.'] else body

/-- Go's `filepath.Clean` on unix, as used by the ZipSlip check in
`extractDiff` (source line 245). -/
def clean (s : String) : String := String.mk (cleanChars s.data)

/-- Go's `filepath.Join(a, b)`: join the non-empty components with `/` and
`Clean` the result; all-empty input yields the empty string
(source line 242: `filepath.Join(dest, f.Name)`). -/
def goJoin (a b : String) : String :=
  if a = "" then (if b = "" then "" else clean b)
  else if b = "" then clean a
  else clean (a ++ "/" ++ b)

/-- Go's `strings.HasPrefix` on character lists
(source line 245). -/
def hasPre : List Char → List Char → Bool
  | [], _ => true
  | _ :: _, [] => false
  | c :: cs, d :: ds => c == d && hasPre cs ds

/-!
Regular-expression model. `pathMatches` (source lines 301-308) calls Go's
`regexp.MatchString("^"+e+"$", p)`, which searches for a match of the
compiled regex anywhere in `p`; `^` and `$` are position assertions
(beginning/end of text, RE2 default flags), `.` matches any character
except newline, and a compile error yields `(false, err)` — the source
discards the error, so a malformed pattern never matches. The model covers
the regexp constructs relevant to the spec: literal characters,
punctuation escapes, `.`, grouping, `|`, `*`, `+`, `?` and the two
anchors; character classes, counted repetition and letter escape classes
are outside the modelled subset and are treated as compile failures. -/

/-- Abstract syntax of the modelled regular expressions. -/
inductive Regex where
  | emp
  | eps
  | caret
  | dollar
  | anyc
  | char (c : Char)
  | seq (a b : Regex)
  | alt (a b : Regex)
  | star (a : Regex)
deriving DecidableEq

/-- Deduplicate a list of positions. -/
def dedupNat : List Nat → List Nat
  | [] => []
  | n :: rest => if rest.contains n then dedupNat rest else n :: dedupNat rest

/-- One expansion step of the reflexive-transitive closure used for
`star`: keep the frontier and add everything reachable by one more
iteration of the body. -/
def stepFrontier (f : Nat → List Nat) (ps : List Nat) : List Nat :=
  dedupNat (ps ++ ps.flatMap f)

/-- Fuelled closure for `star`: all positions reachable by iterating the
body; positions are bounded by the subject length, so fuel
`length + 1` reaches the fixpoint. -/
def starClosure (f : Nat → List Nat) : Nat → List Nat → List Nat
  | 0, ps => ps
  | n + 1, ps => starClosure f n (stepFrontier f ps)

/-- `mtch s r i` = the end positions `j` such that `r` matches the
substring `s[i..j)`, with anchors evaluated against the boundaries of the
whole subject `s` (RE2 semantics without multiline flag). -/
def mtch (s : List Char) : Regex → Nat → List Nat
  | .emp, _ => []
  | .eps, i => [i]
  | .caret, i => if i = 0 then [i] else []
  | .dollar, i => if i = s.length then [i] else []
  | .anyc, i =>
    match s[i]? with
    | some c => if c = '\n' then [] else [i + 1]
    | none => []
  | .char c, i =>
    match s[i]? with
    | some d => if d = c then [i + 1] else []
    | none => []
  | .seq a b, i => (mtch s a i).flatMap (mtch s b)
  | .alt a b, i => mtch s a i ++ mtch s b i
  | .star a, i => starClosure (mtch s a) (s.length + 1) [i]

/-- Unanchored search: does the regex match starting at some position of
the subject? This is the boolean result of Go's `Regexp.MatchString`. -/
def regexSearch (r : Regex) (s : List Char) : Bool :=
  (List.range (s.length + 1)).any (fun i => !(mtch s r i).isEmpty)

/-- Entire-subject match: the regex consumes the whole subject from
position 0. -/
def fullMatchAst (r : Regex) (s : List Char) : Bool :=
  (mtch s r 0).contains s.length

/-- Parser modes for the single fuelled recursive-descent parser
(alternation / concatenation / repetition / primary). -/
inductive PMode where
  | palt
  | pseq
  | patom
  | pprim

/-- Fuelled recursive-descent parser for the modelled regexp subset.
Returns the parsed regex and the unconsumed input, or `none` on a
compile error (dangling repetition operator, unclosed group, trailing
backslash, constructs outside the subset). -/
def parseR : Nat → PMode → List Char → Option (Regex × List Char)
  | 0, _, _ => none
  | n + 1, .palt, cs =>
    match parseR n .pseq cs with
    | none => none
    | some (r, rest) =>
      match rest with
      | '|' :: rest2 =>
        match parseR n .palt rest2 with
        | none => none
        | some (r2, rest3) => some (.alt r r2, rest3)
      | _ => some (r, rest)
  | n + 1, .pseq, cs =>
    match cs with
    | [] => some (.eps, [])
    | ')' :: _ => some (.eps, cs)
    | '|' :: _ => some (.eps, cs)
    | _ =>
      match parseR n .patom cs with
      | none => none
      | some (r, rest) =>
        match parseR n .pseq rest with
        | none => none
        | some (r2, rest2) => some (.seq r r2, rest2)
  | n + 1, .patom, cs =>
    match parseR n .pprim cs with
    | none => none
    | some (r, rest) =>
      match rest with
      | '*' :: rest2 => some (.star r, rest2)
      | '+' :: rest2 => some (.seq r (.star r), rest2)
      | '?' :: rest2 => some (.alt r .eps, rest2)
      | _ => some (r, rest)
  | n + 1, .pprim, cs =>
    match cs with
    | [] => none
    | '(' :: rest =>
      match parseR n .palt rest with
      | none => none
      | some (r, rest2) =>
        match rest2 with
        | ')' :: rest3 => some (r, rest3)
        | _ => none
    | '.' :: rest => some (.anyc, rest)
    | '^' :: rest => some (.caret, rest)
    | '$' :: rest => some (.dollar, rest)
    | '\\' :: c :: rest => if c.isAlphanum then none else some (.char c, rest)
    | '\\' :: [] => none
    | '*' :: _ => none
    | '+' :: _ => none
    | '?' :: _ => none
    | '[' :: _ => none
    | c :: rest => some (.char c, rest)

/-- Compile a pattern: a full parse with no unconsumed input (a stray `)`
is a compile error, as in Go). -/
def parseRegex (cs : List Char) : Option Regex :=
  match parseR (4 * cs.length + 8) .palt cs with
  | some (r, []) => some r
  | _ => none

/-- Go's `regexp.MatchString(pat, s)` boolean result as used by the
source: search the compiled pattern in `s`; a compile error yields
`false` (the source drops the error value). -/
def goMatchString (pat : String) (s : String) : Bool :=
  match parseRegex pat.data with
  | none => false
  | some r => regexSearch r s.data

/-- Source `pathMatches` (lines 301-308): true iff some exclusion pattern
`e`, compiled as `"^" ++ e ++ "$"`, matches the path. -/
def pathMatches (p : String) (excludes : List String) : Bool :=
  excludes.any (fun e => goMatchString ("^" ++ e ++ "$") p)

/-- Follows the spec's words (refinement reference for C4): each pattern
is "anchored to match the *entire* path", i.e. the pattern itself must
match the whole path from start to end; malformed patterns never match. -/
def isExcludedSpec (p : String) (patterns : List String) : Bool :=
  patterns.any (fun e =>
    match parseRegex e.data with
    | none => false
    | some r => fullMatchAst r p.data)

/-!
Differential extraction (source `extractDiff`, `hasDiff`, `unzipDiff`,
lines 201-299). A zip entry carries its relative path, its directory
flag and its content; a read failure of the entry stream
(`f.Open` / `io.Copy` in the source) is an external event injected as
`readErr`. The source fans out one goroutine per selected entry and
joins on a `WaitGroup` before returning; since distinct entries are
intended to address distinct destination files, the fan-out is modelled
as in-order sequential processing — all per-entry effects are complete
when the call returns. -/

/-- One file record of the downloaded archive (a `zip.File`). -/
structure Entry where
  name : String
  isDir : Bool
  content : Bytes
  readErr : Option String := none
deriving DecidableEq

/-- A downloaded archive package; `openErr` injects a
`zip.OpenReader` failure. -/
structure Archive where
  entries : List Entry
  openErr : Option String := none
deriving DecidableEq

/-- Per-entry outcome: skipped (no diff), written, or failed with the
logged error message. -/
inductive Outcome where
  | skipped
  | written
  | failed (msg : String)
deriving DecidableEq

/-- The destination path of an entry:
`filepath.Join(dest, f.Name)` (source line 242). -/
def destPath (dest : String) (e : Entry) : String := goJoin dest e.name

/-- Source `hasDiff` (lines 275-299): fingerprint the entry content and,
when a destination file exists, the file content; report a difference
when the file is absent or the fingerprints are unequal
(`!bytes.Equal(hashb, hashf)`). The fingerprint function `fp` stands for
the external 128-bit MurmurHash3. -/
def hasDiff (fp : Bytes → Bytes) (b : Bytes) (destFile : String) (fs : FS) : Bool :=
  match getKV fs destFile with
  | none => true
  | some c => !(fp b == fp c)

/-- Source `extractDiff` (lines 229-273): read the entry content, resolve
the destination path, reject it unless it stays textually under
`Clean(dest) + "/"` (the ZipSlip check, line 245), skip when `hasDiff`
reports no difference, otherwise write the new content. The write is the
net effect of the source's create-temp / copy / close / rename sequence
(see `writeSeq` below for the step-level model); the temp name is fresh,
so the net effect on the file map is a single update of the destination
path. -/
def extractDiff (fp : Bytes → Bytes) (e : Entry) (dest : String) (fs : FS) :
    Except String (FS × Outcome) :=
  match e.readErr with
  | some msg => .error msg
  | none =>
    let path := goJoin dest e.name
    if !(hasPre (clean dest ++ "/").data path.data) then
      .error ("illegal file path: " ++ path)
    else if !(hasDiff fp e.content path fs) then
      .ok (fs, .skipped)
    else
      .ok (setKV fs path e.content, .written)

/-- One worker of `unzipDiff`'s fan-out: run `extractDiff` on the entry;
an error is logged for that entry only (recorded as a `failed` outcome)
and leaves the filesystem untouched. -/
def runEntry (fp : Bytes → Bytes) (dest : String)
    (acc : FS × List (String × Outcome)) (e : Entry) : FS × List (String × Outcome) :=
  match extractDiff fp e dest acc.1 with
  | .error msg => (acc.1, acc.2 ++ [(e.name, Outcome.failed msg)])
  | .ok (fs2, o) => (fs2, acc.2 ++ [(e.name, o)])

/-- The entry loop of source `unzipDiff` (lines 209-225): skip directory
entries, skip entries matched by the exclusion patterns, process every
remaining entry. -/
def unzipLoop (fp : Bytes → Bytes) (dest : String) (excludes : List String) :
    List Entry → FS × List (String × Outcome) → FS × List (String × Outcome)
  | [], acc => acc
  | e :: rest, acc =>
    if e.isDir then unzipLoop fp dest excludes rest acc
    else if pathMatches e.name excludes then unzipLoop fp dest excludes rest acc
    else unzipLoop fp dest excludes rest (runEntry fp dest acc e)

/-- Selection predicate of the loop: an entry is processed iff it is not
a directory and is not excluded. -/
def selEntry (excludes : List String) (e : Entry) : Bool :=
  !e.isDir && !pathMatches e.name excludes

/-- Source `unzipDiff` (lines 201-227): open the archive (propagating an
open failure), run the entry loop, wait for all workers and return
`nil` — per-entry failures are only logged, never propagated. -/
def unzipDiff (fp : Bytes → Bytes) (ar : Archive) (dest : String)
    (excludes : List String) (fs : FS) :
    Except String (FS × List (String × Outcome)) :=
  match ar.openErr with
  | some e => .error e
  | none => .ok (unzipLoop fp dest excludes ar.entries (fs, []))

/-!
Step-level model of the write path of `extractDiff` (source lines
257-270): `os.CreateTemp(tempDir, "extract-*")`, a chunked `io.Copy`
onto the temp file, `Close`, then `os.Rename(t.Name(), path)`. Each
`FsOp` is one atomic observable filesystem transition; `close` has no
effect on the file map (flush only). A rename of a missing source fails
and leaves the map untouched, so a rename failure also causes no
partial state. -/

/-- Source directory constants (lines 35-42): the scratch area used by
`os.CreateTemp` for both artifact downloads and entry extraction. -/
def tempDir : String := "tmp"

/-- Atomic observable filesystem operations. -/
inductive FsOp where
  | create (p : String)
  | app (p : String) (b : Bytes)
  | close (p : String)
  | rename (src dst : String)
deriving DecidableEq

/-- Effect of one operation on the file map. -/
def applyOp (fs : FS) : FsOp → FS
  | .create p => setKV fs p []
  | .app p b => setKV fs p (((getKV fs p).getD []) ++ b)
  | .close _ => fs
  | .rename src dst =>
    match getKV fs src with
    | none => fs
    | some c => setKV (eraseKV fs src) dst c

/-- Effect of an operation sequence. -/
def applyOps (fs : FS) (ops : List FsOp) : FS := ops.foldl applyOp fs

/-- The operation sequence of the differing-entry write in `extractDiff`:
create the temp file in the scratch area, copy the content in chunks,
close, then rename over the destination. -/
def writeSeq (tmp path : String) (chunks : List Bytes) : List FsOp :=
  FsOp.create tmp :: (chunks.map (FsOp.app tmp) ++ [FsOp.close tmp, FsOp.rename tmp path])

/-!
Job runner (source `runJob`, `markUpdate`, `init`, lines 52-137).
External I/O results are injected through `RunEnv`: the decoded artifact
listing result (`getLatestArtifact`, a thin HTTP wrapper), the artifact
download result, the persistence result of `saveJSON` inside
`markUpdate`, and the downloaded archive. `log.Fatal` terminates the
whole process and is modelled as the distinguished `fatal` result. -/

/-- Source `Job` configuration record (lines 27-33). -/
structure Job where
  owner : String
  repo : String
  artifactName : String
  excludes : List String
  deployPath : String
deriving DecidableEq

/-- Source `Secret` record (lines 22-25). -/
structure Secret where
  owner : String
  token : String
deriving DecidableEq

/-- The artifact fields the core logic reads (from `struct.go`):
`Name` and `CreatedAt` (timestamps are modelled as integers; the Go zero
`time.Time` is `0`). -/
structure Artifact where
  name : String
  createdAt : Int
deriving DecidableEq

/-- Injected external results for one `runJob` call. -/
structure RunEnv where
  listing : Except String Artifact
  saveErr : Option String
  download : Except String Unit
  archive : Archive

/-- Result of one `runJob` call: `fatal` is `log.Fatal` (the process
terminates), `errorLogged` is a logged per-job error (the job is skipped
this cycle), `upToDate` is the early return on an unchanged timestamp,
`completed` carries the per-entry outcomes of the synchronization. -/
inductive JobResult where
  | fatal (msg : String)
  | errorLogged (msg : String)
  | upToDate
  | completed (results : List (String × Outcome))
deriving DecidableEq

/-- Source job key: `fmt.Sprintf("%v.%v.%v", Owner, Repo, ArtifactName)`
(line 103). -/
def jobKey (j : Job) : String :=
  j.owner ++ "." ++ j.repo ++ "." ++ j.artifactName

/-- Source `markUpdate` (lines 132-137): set the in-memory ledger entry,
then persist the whole ledger with `saveJSON`; a persistence failure is
`log.Fatal`. Returns the updated ledger and whether the process died. -/
def markUpdate (l : Ledger) (key : String) (t : Int) (saveErr : Option String) :
    Ledger × Option String :=
  (setKV l key t, saveErr)

/-- Source `runJob` (lines 102-130): list artifacts (failure: logged,
return); return early when the latest version timestamp equals the
ledger entry; otherwise mark the ledger (before downloading), then
download (failure: logged, return), then run the differential
synchronizer (open failure: logged, return). -/
def runJob (fp : Bytes → Bytes) (j : Job) (env : RunEnv) (ledger : Ledger) (fs : FS) :
    Ledger × FS × JobResult :=
  match env.listing with
  | .error e => (ledger, fs, .errorLogged e)
  | .ok a =>
    if a.createdAt = ledgerGet ledger (jobKey j) then (ledger, fs, .upToDate)
    else
      match markUpdate ledger (jobKey j) a.createdAt env.saveErr with
      | (ledger2, some e) => (ledger2, fs, .fatal e)
      | (ledger2, none) =>
        match env.download with
        | .error e => (ledger2, fs, .errorLogged e)
        | .ok _ =>
          match unzipDiff fp env.archive j.deployPath j.excludes fs with
          | .error e => (ledger2, fs, .errorLogged e)
          | .ok (fs2, rs) => (ledger2, fs2, .completed rs)

/-- Source `init` (lines 52-87): build the secret map from the loaded
secrets, load the jobs, load the ledger (a missing ledger file is first
created as the empty document `{}`, so only a real read/parse failure
remains); any load failure is `log.Fatal`, modelled as the `error`
branch — the process refuses to start. -/
def buildSecretMap (secrets : List Secret) : List (String × String) :=
  secrets.foldl (fun m s => setKV m s.owner s.token) []

/-- Startup of the process: all three configuration loads must succeed. -/
def initProcess (secretLoad : Except String (List Secret))
    (jobLoad : Except String (List Job)) (logLoad : Except String Ledger) :
    Except String (List (String × String) × List Job × Ledger) :=
  match secretLoad with
  | .error e => .error e
  | .ok secrets =>
    match jobLoad with
    | .error e => .error e
    | .ok js =>
      match logLoad with
      | .error e => .error e
      | .ok lu => .ok (buildSecretMap secrets, js, lu)

/-- A concrete fingerprint instance used by witnesses and
counterexamples; the theorems are proved for every fingerprint function,
in particular for the MurmurHash3 of the source (which also separates
the concrete one-byte contents used below). -/
def idFp : Bytes → Bytes := fun b => b

/-- A well-behaved entry for a given destination root: its stream is
readable and its resolved path passes the ZipSlip check. -/
def entryOK (dest : String) (e : Entry) : Prop :=
  e.readErr = none ∧ hasPre (clean dest ++ "/").data (destPath dest e).data = true

/-- The destination file of the entry exists with content whose
fingerprint equals the fingerprint of the entry content. -/
def fpUpToDate (fp : Bytes → Bytes) (dest : String) (fs : FS) (e : Entry) : Prop :=
  ∃ c, getKV fs (destPath dest e) = some c ∧ fp e.content = fp c

instance (dest : String) (e : Entry) : Decidable (entryOK dest e) := by
  unfold entryOK
  infer_instance

/-- Concrete archive entries for witnesses. -/
def entA : Entry := ⟨"a.txt", false, [88], none⟩

/-- Second concrete entry, in a subdirectory. -/
def entC : Entry := ⟨"b/c.txt", false, [89], none⟩

/-- An unreadable entry (its zip stream fails). -/
def entBad : Entry := ⟨"bad.txt", false, [7], some ("unexpected EOF")⟩

/-- A concrete job configuration for witnesses. -/
def jobD : Job := ⟨"o", "r", "app", [], "/d"⟩

/-- A concrete artifact version. -/
def artifactV5 : Artifact := ⟨"app", 5⟩

/-- Environment: listing succeeds, download fails with a transport
error. -/
def envDownloadFail : RunEnv := ⟨.ok artifactV5, none, .error ("connection reset"), ⟨[], none⟩⟩

/-- Environment: everything succeeds, archive holds the two entries. -/
def envOk : RunEnv := ⟨.ok artifactV5, none, .ok (), ⟨[entA, entC], none⟩⟩

/-- Environment: persisting the ledger fails. -/
def envSaveFail : RunEnv := ⟨.ok artifactV5, some ("disk full"), .ok (), ⟨[], none⟩⟩

/-- Environment: the artifact listing fails with a transport error. -/
def envListFail : RunEnv := ⟨.error ("timeout"), none, .ok (), ⟨[], none⟩⟩

/-!
Lemmas about the association-list store.
-/

/-- Lookup after update. -/
theorem getKV_setKV {α : Type} (fs : List (String × α)) (p : String) (c : α) (q : String) :
    getKV (setKV fs p c) q = if p = q then some c else getKV fs q := by
  induction fs with
  | nil => simp [getKV, setKV]
  | cons kv rest ih =>
    obtain ⟨k, v⟩ := kv
    by_cases hk : k = p
    · subst hk
      simp only [setKV, if_pos rfl, getKV]
      by_cases hq : k = q
      · simp [hq]
      · simp [hq, getKV, fun h => hq h]
    · simp only [setKV, if_neg hk, getKV]
      by_cases hq : k = q
      · subst hq
        have : ¬ p = k := fun h => hk h.symm
        simp [this]
      · simp [hq, ih]

/-- Lookup after removal, away from the removed key. -/
theorem getKV_eraseKV {α : Type} (fs : List (String × α)) (p q : String) (h : q ≠ p) :
    getKV (eraseKV fs p) q = getKV fs q := by
  induction fs with
  | nil => simp [eraseKV]
  | cons kv rest ih =>
    obtain ⟨k, v⟩ := kv
    by_cases hk : k = p
    · subst hk
      have : ¬ k = q := fun hkq => h hkq.symm
      simp [eraseKV, getKV, this]
    · simp only [eraseKV, if_neg hk, getKV]
      by_cases hq : k = q
      · simp [hq]
      · simp [hq, ih]

/-!
Case analysis of `extractDiff` on a well-behaved entry.
-/

/-- On a readable entry whose path passes the ZipSlip check,
`extractDiff` is exactly the diff-and-write logic: write on a missing
destination file, skip on equal fingerprints, write on differing
fingerprints. -/
theorem extractDiff_of_ok (fp : Bytes → Bytes) (e : Entry) (dest : String) (fs : FS)
    (h1 : e.readErr = none)
    (h2 : hasPre (clean dest ++ "/").data (destPath dest e).data = true) :
    extractDiff fp e dest fs =
      match getKV fs (destPath dest e) with
      | none => .ok (setKV fs (destPath dest e) e.content, .written)
      | some c =>
        if fp e.content = fp c then .ok (fs, .skipped)
        else .ok (setKV fs (destPath dest e) e.content, .written) := by
  have hpath : destPath dest e = goJoin dest e.name := rfl
  rw [hpath] at h2
  have h2x : hasPre ((clean dest).data ++ ['/']) (goJoin dest e.name).data = true := by
    simpa using h2
  cases hc : getKV fs (destPath dest e) with
  | none =>
    rw [hpath] at hc
    simp [extractDiff, h1, destPath, hpath, h2x, hasDiff, hc]
  | some c =>
    rw [hpath] at hc
    by_cases hfp : fp e.content = fp c
    · simp [extractDiff, h1, destPath, hpath, h2x, hasDiff, hc, hfp]
    · simp [extractDiff, h1, destPath, hpath, h2x, hasDiff, hc, hfp]

/-- Claim C2: an archive entry whose path, joined with the destination
root and normalized, does not remain textually under the destination
root is rejected by `extractDiff` with the path-traversal error
(`illegal file path`), and no filesystem mutation is performed — the
per-entry worker leaves the file map exactly as it was. -/
theorem traversalRejected (fp : Bytes → Bytes) (e : Entry) (dest : String) (fs : FS)
    (rs : List (String × Outcome)) (h1 : e.readErr = none)
    (h2 : hasPre (clean dest ++ "/").data (destPath dest e).data = false) :
    extractDiff fp e dest fs = .error ("illegal file path: " ++ destPath dest e)
    ∧ runEntry fp dest (fs, rs) e =
        (fs, rs ++ [(e.name, Outcome.failed ("illegal file path: " ++ destPath dest e))]) := by
  have hpath : destPath dest e = goJoin dest e.name := rfl
  rw [hpath] at h2 ⊢
  have h2x : hasPre ((clean dest).data ++ ['/']) (goJoin dest e.name).data = false := by
    simpa using h2
  have hx : extractDiff fp e dest fs = .error ("illegal file path: " ++ goJoin dest e.name) := by
    simp [extractDiff, h1, h2x]
  exact ⟨hx, by simp [runEntry, hx]⟩

/-- Claim C2 witness: the entry `../../etc/passwd` against destination
root `/deploy` resolves to `/etc/passwd`, which is outside the root, and
is rejected without touching the file map. -/
theorem traversalRejected_witness :
    extractDiff idFp ⟨"../../etc/passwd", false, [1], none⟩ ("/deploy") [("/etc/passwd", [9])] =
      .error ("illegal file path: /etc/passwd")
    ∧ runEntry idFp ("/deploy") ([("/etc/passwd", [9])], []) ⟨"../../etc/passwd", false, [1], none⟩ =
        ([("/etc/passwd", [9])],
          [("../../etc/passwd", Outcome.failed ("illegal file path: /etc/passwd"))]) := by
  have h := traversalRejected idFp ⟨"../../etc/passwd", false, [1], none⟩ ("/deploy")
    [("/etc/passwd", [9])] [] (by rfl) (by decide)
  exact ⟨h.1, h.2⟩

/-- Claim C5: `extractDiff` writes exactly when the content differs — a
missing destination file counts as differing and the entry content is
written; an existing file whose fingerprint equals the fingerprint of
the entry content gives the `skipped` outcome with the file map returned
untouched; an existing file with a differing fingerprint is
overwritten. -/
theorem diffWriteSkip (fp : Bytes → Bytes) (e : Entry) (dest : String) (fs : FS)
    (h1 : e.readErr = none)
    (h2 : hasPre (clean dest ++ "/").data (destPath dest e).data = true) :
    (getKV fs (destPath dest e) = none →
      extractDiff fp e dest fs = .ok (setKV fs (destPath dest e) e.content, .written))
    ∧ (∀ c, getKV fs (destPath dest e) = some c → fp e.content = fp c →
      extractDiff fp e dest fs = .ok (fs, .skipped))
    ∧ (∀ c, getKV fs (destPath dest e) = some c → fp e.content ≠ fp c →
      extractDiff fp e dest fs = .ok (setKV fs (destPath dest e) e.content, .written)) := by
  refine ⟨fun hc => ?_, fun c hc hfp => ?_, fun c hc hfp => ?_⟩
  · rw [extractDiff_of_ok fp e dest fs h1 h2, hc]
  · rw [extractDiff_of_ok fp e dest fs h1 h2, hc]
    simp [hfp]
  · rw [extractDiff_of_ok fp e dest fs h1 h2, hc]
    simp [hfp]

/-- Claim C5 witness: against an empty destination the entry `a.txt` is
written; against a destination already holding its exact content it is
skipped with the file map unchanged. -/
theorem diffWriteSkip_witness :
    extractDiff idFp entA ("/d") [] = .ok ([("/d/a.txt", [88])], .written)
    ∧ extractDiff idFp entA ("/d") [("/d/a.txt", [88])] = .ok ([("/d/a.txt", [88])], .skipped) := by
  constructor
  · exact (diffWriteSkip idFp entA ("/d") [] (by rfl) (by decide)).1 (by rfl)
  · exact (diffWriteSkip idFp entA ("/d") [("/d/a.txt", [88])] (by rfl) (by decide)).2.1
      [88] (by rfl) (by rfl)

/-- The entry loop is the fold of the per-entry worker over the
non-directory, non-excluded entries, in archive order. -/
theorem unzipLoop_eq (fp : Bytes → Bytes) (dest : String) (excludes : List String) :
    ∀ (es : List Entry) (acc : FS × List (String × Outcome)),
      unzipLoop fp dest excludes es acc =
        (es.filter (selEntry excludes)).foldl (runEntry fp dest) acc := by
  intro es
  induction es with
  | nil => intro acc; rfl
  | cons e rest ih =>
    intro acc
    by_cases hd : e.isDir
    · simp [unzipLoop, hd, List.filter_cons, selEntry, ih]
    · by_cases hm : pathMatches e.name excludes
      · simp [unzipLoop, hd, hm, List.filter_cons, selEntry, ih]
      · simp [unzipLoop, hd, hm, List.filter_cons, selEntry, ih]

/-- Each worker appends exactly one record, labelled with its entry's
name. -/
theorem runEntry_name (fp : Bytes → Bytes) (dest : String)
    (acc : FS × List (String × Outcome)) (e : Entry) :
    ((runEntry fp dest acc e).2).map Prod.fst = acc.2.map Prod.fst ++ [e.name] := by
  unfold runEntry
  cases h : extractDiff fp e dest acc.1 with
  | error m => simp
  | ok pr => cases pr; simp

/-- The fold produces one record per processed entry, labelled in
order with the entries' names. -/
theorem foldl_runEntry_names (fp : Bytes → Bytes) (dest : String) :
    ∀ (es : List Entry) (acc : FS × List (String × Outcome)),
      (((es.foldl (runEntry fp dest) acc).2).map Prod.fst)
        = acc.2.map Prod.fst ++ es.map Entry.name := by
  intro es
  induction es with
  | nil => intro acc; simp
  | cons e rest ih =>
    intro acc
    rw [List.foldl_cons, ih, runEntry_name]
    simp

/-- Claim C9: on an archive that opens, `unzipDiff` processes exactly the
non-directory, non-excluded entries — the result is the sequential
composition of the per-entry workers over the filtered entry list (all
spawned workers' effects are complete in the returned state), with one
outcome record per selected entry in order; directory entries and
excluded entries are never selected. -/
theorem unzipSelection (fp : Bytes → Bytes) (ar : Archive) (dest : String)
    (excludes : List String) (fs : FS) (hopen : ar.openErr = none) :
    unzipDiff fp ar dest excludes fs =
      .ok ((ar.entries.filter (selEntry excludes)).foldl (runEntry fp dest) (fs, []))
    ∧ ((((ar.entries.filter (selEntry excludes)).foldl (runEntry fp dest) (fs, [])).2).map Prod.fst)
        = (ar.entries.filter (selEntry excludes)).map Entry.name
    ∧ (∀ e ∈ ar.entries, e.isDir = true → selEntry excludes e = false)
    ∧ (∀ e ∈ ar.entries, pathMatches e.name excludes = true → selEntry excludes e = false) := by
  refine ⟨?_, ?_, ?_, ?_⟩
  · simp [unzipDiff, hopen, unzipLoop_eq]
  · simpa using foldl_runEntry_names fp dest (ar.entries.filter (selEntry excludes)) (fs, [])
  · intro e _ hd; simp [selEntry, hd]
  · intro e _ hm; simp [selEntry, hm]

/-- Claim C9 witness: an archive with a directory entry, an excluded
entry and two ordinary entries synchronizes exactly the two ordinary
entries. -/
theorem unzipSelection_witness :
    unzipDiff idFp ⟨[⟨"b", true, [], none⟩, ⟨"skip.txt", false, [1], none⟩, entA, entC], none⟩
        ("/d") (["skip\\.txt"]) [] =
      .ok ([("/d/a.txt", [88]), ("/d/b/c.txt", [89])],
        [("a.txt", .written), ("b/c.txt", .written)]) := by
  have h := unzipSelection idFp
    ⟨[⟨"b", true, [], none⟩, ⟨"skip.txt", false, [1], none⟩, entA, entC], none⟩
    ("/d") (["skip\\.txt"]) [] (by rfl)
  rw [h.1]
  rfl

/-- Claim C7: a failure while processing one entry is reported as a
`failed` record for that entry alone and never aborts the batch — with a
failing entry in the middle of the archive, `unzipDiff` still returns
normally, the entry's worker leaves the file map untouched, and all
sibling entries before and after it are processed exactly as they would
be otherwise. -/
theorem failureIsolated (fp : Bytes → Bytes) (dest : String) (excludes : List String)
    (fs : FS) (es1 es2 : List Entry) (bad : Entry) (msg : String)
    (hdir : bad.isDir = false) (hm : pathMatches bad.name excludes = false)
    (hbad : bad.readErr = some msg) :
    unzipDiff fp ⟨es1 ++ bad :: es2, none⟩ dest excludes fs =
      .ok ((es2.filter (selEntry excludes)).foldl (runEntry fp dest)
        (((es1.filter (selEntry excludes)).foldl (runEntry fp dest) (fs, [])).1,
         ((es1.filter (selEntry excludes)).foldl (runEntry fp dest) (fs, [])).2
           ++ [(bad.name, Outcome.failed msg)])) := by
  have hsel : selEntry excludes bad = true := by simp [selEntry, hdir, hm]
  have hbadrun : ∀ acc : FS × List (String × Outcome),
      runEntry fp dest acc bad = (acc.1, acc.2 ++ [(bad.name, Outcome.failed msg)]) := by
    intro acc; simp [runEntry, extractDiff, hbad]
  simp [unzipDiff, unzipLoop_eq, List.filter_append, List.filter_cons, hsel,
    List.foldl_append, hbadrun]

/-- Claim C7 witness: with an unreadable entry between `a.txt` and
`b/c.txt`, the call returns normally, the middle entry is reported
failed, and both siblings are written. -/
theorem failureIsolated_witness :
    unzipDiff idFp ⟨[entA, entBad, entC], none⟩ ("/d") [] [] =
      .ok ([("/d/a.txt", [88]), ("/d/b/c.txt", [89])],
        [("a.txt", .written), ("bad.txt", .failed ("unexpected EOF")), ("b/c.txt", .written)]) := by
  have h := failureIsolated idFp ("/d") [] [] [entA] [entC] entBad ("unexpected EOF")
    (by rfl) (by decide) (by rfl)
  rw [show ([entA] ++ entBad :: [entC]) = [entA, entBad, entC] from rfl] at h
  rw [h]
  rfl

/-- Claim C8: a pattern whose compiled form `^pattern$` fails to compile
is treated as non-matching and the remaining patterns are still
consulted — removing the malformed pattern from the list never changes
the result, and `pathMatches` is a total function (the job cannot
crash on a malformed pattern). -/
theorem malformedFailOpen (p : String) (es1 es2 : List String) (bad : String)
    (hbad : parseRegex (("^" ++ bad ++ "$").data) = none) :
    pathMatches p (es1 ++ bad :: es2) = pathMatches p (es1 ++ es2) := by
  have hbad2 : parseRegex ('^' :: (bad.data ++ ['$'])) = none := by simpa using hbad
  simp [pathMatches, List.any_append, List.any_cons, goMatchString, hbad2]

/-- Claim C8 witness: the malformed pattern `(` between two well-formed
patterns is ignored; the later pattern still matches. -/
theorem malformedFailOpen_witness :
    parseRegex (("^($").data) = none
    ∧ pathMatches ("x") (["a", "(", "x"]) = pathMatches ("x") (["a", "x"])
    ∧ pathMatches ("x") (["a", "x"]) = true := by
  refine ⟨by decide, ?_, by decide⟩
  have h := malformedFailOpen ("x") ["a"] ["x"] ("(") (by decide)
  simpa using h

/-- Anchored search coincides with entire-subject matching: searching for
`caret ; body ; dollar` anywhere in the subject succeeds exactly when
the body matches the whole subject. This is the sense in which wrapping
a pattern as `^pattern$` anchors it — provided the wrapped pattern
compiles to this sequential shape, i.e. the pattern has no top-level
alternation. -/
theorem anchoredSearch (r : Regex) (s : List Char) :
    regexSearch (.seq .caret (.seq r .dollar)) s = fullMatchAst r s := by
  have key0 : mtch s (Regex.seq .caret (.seq r .dollar)) 0
      = (mtch s r 0).flatMap (fun k => if k = s.length then [k] else []) := by
    simp [mtch]
  have keyn : ∀ i, i ≠ 0 → mtch s (Regex.seq .caret (.seq r .dollar)) i = [] := by
    intro i h0; simp [mtch, h0]
  rw [Bool.eq_iff_iff]
  unfold regexSearch fullMatchAst
  simp only [List.any_eq_true, List.mem_range, Bool.not_eq_true', List.isEmpty_eq_false,
    ne_eq]
  constructor
  · rintro ⟨i, hi, hne⟩
    by_cases h0 : i = 0
    · subst h0
      rw [key0] at hne
      obtain ⟨x, hx⟩ := List.exists_mem_of_ne_nil _ hne
      rw [List.mem_flatMap] at hx
      obtain ⟨k, hk, hxk⟩ := hx
      by_cases hkn : k = s.length
      · subst hkn; simpa using hk
      · simp [hkn] at hxk
    · exact absurd (keyn i h0) hne
  · intro h
    have hmem : s.length ∈ mtch s r 0 := by simpa using h
    refine ⟨0, Nat.succ_pos _, ?_⟩
    rw [key0]
    intro hcon
    rw [List.flatMap_eq_nil_iff] at hcon
    have h2 := hcon (s.length) hmem
    simp at h2

/-- Claim C4 counterexample: the pattern `x|y` has a top-level
alternation, so its compiled form `^x|y$` groups as `(^x)|(y$)` and
matches the path `zy` as a suffix search — the code excludes `zy`, while
an implicit-full-anchor reading of the same pattern (the spec's words,
`isExcludedSpec`) does not. -/
theorem anchoring_cex :
    pathMatches ("zy") (["x|y"]) = true
    ∧ isExcludedSpec ("zy") (["x|y"]) = false := by
  exact ⟨by decide, by decide⟩

/-- Claim C4 (amended): each pattern `e` is matched by searching the
compiled regex `^e$` within the path. An empty pattern list excludes
nothing, `data\.json` does not exclude `sub/data.json` while
`.*data\.json` does, and anchored search coincides with entire-path
matching whenever the compiled pattern has the sequential shape
`caret ; body ; dollar` — i.e. for every pattern without a top-level
alternation; a top-level alternation distributes the anchors over its
branches instead. -/
theorem anchoringAmended :
    (∀ p : String, pathMatches p [] = false)
    ∧ pathMatches ("sub/data.json") (["data\\.json"]) = false
    ∧ pathMatches ("sub/data.json") ([".*data\\.json"]) = true
    ∧ (∀ (r : Regex) (s : List Char),
        regexSearch (.seq .caret (.seq r .dollar)) s = fullMatchAst r s) := by
  exact ⟨fun p => rfl, by decide, by decide, anchoredSearch⟩

/-- Effect of one worker on a well-behaved entry: afterwards the entry's
destination file carries content fingerprint-equal to the entry content,
and no other path of the file map is touched. -/
theorem runEntry_effect (fp : Bytes → Bytes) (dest : String) (fs : FS)
    (rs : List (String × Outcome)) (e : Entry) (h : entryOK dest e) :
    fpUpToDate fp dest ((runEntry fp dest (fs, rs) e).1) e
    ∧ (∀ q, q ≠ destPath dest e →
        getKV ((runEntry fp dest (fs, rs) e).1) q = getKV fs q) := by
  have hx := extractDiff_of_ok fp e dest fs h.1 h.2
  cases hc : getKV fs (destPath dest e) with
  | none =>
    have hx2 : extractDiff fp e dest fs
        = Except.ok (setKV fs (destPath dest e) e.content, Outcome.written) := by
      rw [hx, hc]
    have hrun : runEntry fp dest (fs, rs) e
        = (setKV fs (destPath dest e) e.content, rs ++ [(e.name, Outcome.written)]) := by
      simp [runEntry, hx2]
    rw [hrun]
    constructor
    · exact ⟨e.content, by simp [getKV_setKV], rfl⟩
    · intro q hq
      simp only [getKV_setKV]
      rw [if_neg (fun hh => hq hh.symm)]
  | some c =>
    by_cases hfp : fp e.content = fp c
    · have hx2 : extractDiff fp e dest fs = Except.ok (fs, Outcome.skipped) := by
        rw [hx, hc]
        simp [hfp]
      have hrun : runEntry fp dest (fs, rs) e = (fs, rs ++ [(e.name, Outcome.skipped)]) := by
        simp [runEntry, hx2]
      rw [hrun]
      exact ⟨⟨c, hc, hfp⟩, fun q hq => rfl⟩
    · have hx2 : extractDiff fp e dest fs
          = Except.ok (setKV fs (destPath dest e) e.content, Outcome.written) := by
        rw [hx, hc]
        simp [hfp]
      have hrun : runEntry fp dest (fs, rs) e
          = (setKV fs (destPath dest e) e.content, rs ++ [(e.name, Outcome.written)]) := by
        simp [runEntry, hx2]
      rw [hrun]
      constructor
      · exact ⟨e.content, by simp [getKV_setKV], rfl⟩
      · intro q hq
        simp only [getKV_setKV]
        rw [if_neg (fun hh => hq hh.symm)]

/-- After the first pass over a list of well-behaved entries with
pairwise distinct destination paths, every entry's destination file is
fingerprint-up-to-date, and paths outside the entries' destinations are
untouched. -/
theorem foldl_establishes (fp : Bytes → Bytes) (dest : String) :
    ∀ (es : List Entry) (fs : FS) (rs : List (String × Outcome)),
      (∀ e ∈ es, entryOK dest e) →
      (es.map (destPath dest)).Nodup →
      (∀ e ∈ es, fpUpToDate fp dest ((es.foldl (runEntry fp dest) (fs, rs)).1) e)
      ∧ (∀ q, q ∉ es.map (destPath dest) →
          getKV ((es.foldl (runEntry fp dest) (fs, rs)).1) q = getKV fs q) := by
  intro es
  induction es with
  | nil => intro fs rs _ _; exact ⟨fun e he => absurd he (List.not_mem_nil e), fun q _ => rfl⟩
  | cons e rest ih =>
    intro fs rs hok hnd
    have hoke : entryOK dest e := hok e (List.mem_cons_self e rest)
    have hokr : ∀ x ∈ rest, entryOK dest x := fun x hx => hok x (List.mem_cons_of_mem e hx)
    rw [List.map_cons, List.nodup_cons] at hnd
    obtain ⟨hnotin, hndr⟩ := hnd
    obtain ⟨hupd, hframe⟩ := runEntry_effect fp dest fs rs e hoke
    rw [List.foldl_cons]
    have hIH := ih ((runEntry fp dest (fs, rs) e).1) ((runEntry fp dest (fs, rs) e).2)
      hokr hndr
    refine ⟨?_, ?_⟩
    · intro x hx
      rcases List.mem_cons.mp hx with hxe | hxr
      · subst hxe
        obtain ⟨c, hcA, hfpc⟩ := hupd
        refine ⟨c, ?_, hfpc⟩
        rw [hIH.2 (destPath dest x) hnotin]
        exact hcA
      · exact hIH.1 x hxr
    · intro q hq
      rw [List.map_cons, List.mem_cons] at hq
      push_neg at hq
      rw [hIH.2 q hq.2, hframe q hq.1]

/-- A pass over entries whose destination files are already
fingerprint-up-to-date performs no write: it returns the file map
unchanged and appends one `skipped` record per entry. -/
theorem foldl_all_skip (fp : Bytes → Bytes) (dest : String) :
    ∀ (es : List Entry) (fs : FS) (rs : List (String × Outcome)),
      (∀ e ∈ es, entryOK dest e ∧ fpUpToDate fp dest fs e) →
      es.foldl (runEntry fp dest) (fs, rs)
        = (fs, rs ++ es.map (fun e => (e.name, Outcome.skipped))) := by
  intro es
  induction es with
  | nil => intro fs rs _; simp
  | cons e rest ih =>
    intro fs rs h
    obtain ⟨hoke, c, hc, hfp⟩ := h e (List.mem_cons_self e rest)
    have hx2 : extractDiff fp e dest fs = Except.ok (fs, Outcome.skipped) := by
      rw [extractDiff_of_ok fp e dest fs hoke.1 hoke.2, hc]
      simp [hfp]
    have hrun : runEntry fp dest (fs, rs) e = (fs, rs ++ [(e.name, Outcome.skipped)]) := by
      simp [runEntry, hx2]
    rw [List.foldl_cons, hrun, ih fs (rs ++ [(e.name, Outcome.skipped)])
      (fun x hx => h x (List.mem_cons_of_mem e hx))]
    simp

/-- Claim C6 (amended): synchronize is idempotent for archives whose
selected (non-directory, non-excluded) entries are readable, pass the
traversal check, and have pairwise distinct destination paths — a second
`unzipDiff` run against the state produced by a first run performs zero
filesystem writes and reports the `skipped` outcome for every selected
entry. Without the distinct-paths condition the claim fails (see the
counterexample). -/
theorem secondRunAllSkipped (fp : Bytes → Bytes) (ar : Archive) (dest : String)
    (excludes : List String) (fs fs1 : FS) (rs1 : List (String × Outcome))
    (hopen : ar.openErr = none)
    (hok : ∀ e ∈ ar.entries.filter (selEntry excludes), entryOK dest e)
    (hnd : ((ar.entries.filter (selEntry excludes)).map (destPath dest)).Nodup)
    (hfirst : unzipDiff fp ar dest excludes fs = .ok (fs1, rs1)) :
    unzipDiff fp ar dest excludes fs1
      = .ok (fs1, (ar.entries.filter (selEntry excludes)).map
          (fun e => (e.name, Outcome.skipped))) := by
  have hloop : unzipLoop fp dest excludes ar.entries (fs, []) = (fs1, rs1) := by
    simpa [unzipDiff, hopen] using hfirst
  rw [unzipLoop_eq] at hloop
  have hfs1 : ((ar.entries.filter (selEntry excludes)).foldl (runEntry fp dest) (fs, [])).1
      = fs1 := by
    rw [hloop]
  have hinv := foldl_establishes fp dest (ar.entries.filter (selEntry excludes)) fs [] hok hnd
  rw [hfs1] at hinv
  have hall : ∀ e ∈ ar.entries.filter (selEntry excludes),
      entryOK dest e ∧ fpUpToDate fp dest fs1 e :=
    fun e he => ⟨hok e he, hinv.1 e he⟩
  simp only [unzipDiff, hopen, unzipLoop_eq]
  rw [foldl_all_skip fp dest _ fs1 [] hall]
  simp

/-- Claim C6 counterexample: an archive holding two entries with the
same destination path but different contents violates idempotence as
stated — both runs report `written` for every entry, never `skipped`
(the source processes such entries concurrently; the model serializes
them in order). -/
theorem secondRun_cex :
    unzipDiff idFp ⟨[⟨"p", false, [1], none⟩, ⟨"p", false, [2], none⟩], none⟩ ("/d") [] []
      = .ok ([("/d/p", [2])], [("p", .written), ("p", .written)])
    ∧ unzipDiff idFp ⟨[⟨"p", false, [1], none⟩, ⟨"p", false, [2], none⟩], none⟩ ("/d") []
        [("/d/p", [2])]
      = .ok ([("/d/p", [2])], [("p", .written), ("p", .written)])
    ∧ Outcome.written ≠ Outcome.skipped := by
  exact ⟨rfl, rfl, by decide⟩

/-- Claim C6 witness: for the two-entry archive with distinct paths, the
second run skips both entries and leaves the file map unchanged. -/
theorem secondRunAllSkipped_witness :
    unzipDiff idFp ⟨[entA, entC], none⟩ ("/d") []
        [("/d/a.txt", [88]), ("/d/b/c.txt", [89])]
      = .ok ([("/d/a.txt", [88]), ("/d/b/c.txt", [89])],
          [("a.txt", .skipped), ("b/c.txt", .skipped)]) := by
  exact secondRunAllSkipped idFp ⟨[entA, entC], none⟩ ("/d") [] []
    [("/d/a.txt", [88]), ("/d/b/c.txt", [89])]
    [("a.txt", .written), ("b/c.txt", .written)]
    (by rfl) (by decide) (by decide) (by rfl)

/-- Operations that touch only the temp file leave every other path of
the file map unchanged. -/
theorem getKV_applyOps_tmpOnly (tmp q : String) (hq : q ≠ tmp) :
    ∀ (ops : List FsOp) (fs : FS),
      (∀ op ∈ ops, op = FsOp.create tmp ∨ (∃ b, op = FsOp.app tmp b) ∨ op = FsOp.close tmp) →
      getKV (applyOps fs ops) q = getKV fs q := by
  intro ops
  induction ops with
  | nil => intro fs _; rfl
  | cons op rest ih =>
    intro fs h
    have hop := h op (List.mem_cons_self op rest)
    have hrest : ∀ x ∈ rest,
        x = FsOp.create tmp ∨ (∃ b, x = FsOp.app tmp b) ∨ x = FsOp.close tmp :=
      fun x hx => h x (List.mem_cons_of_mem op hx)
    rw [show applyOps fs (op :: rest) = applyOps (applyOp fs op) rest from rfl]
    rw [ih (applyOp fs op) hrest]
    rcases hop with h1 | ⟨b, h2⟩ | h3
    · subst h1
      simp only [applyOp, getKV_setKV]
      rw [if_neg (fun hh => hq hh.symm)]
    · subst h2
      simp only [applyOp, getKV_setKV]
      rw [if_neg (fun hh => hq hh.symm)]
    · subst h3
      rfl

/-- Appending all chunks onto the temp file accumulates the
concatenated content. -/
theorem applyOps_app_content (tmp : String) :
    ∀ (chunks : List Bytes) (fs : FS) (acc : Bytes),
      getKV fs tmp = some acc →
      getKV (applyOps fs (chunks.map (FsOp.app tmp))) tmp = some (acc ++ chunks.flatten) := by
  intro chunks
  induction chunks with
  | nil =>
    intro fs acc h
    simpa [applyOps] using h
  | cons b rest ih =>
    intro fs acc h
    rw [List.map_cons]
    rw [show applyOps fs (FsOp.app tmp b :: rest.map (FsOp.app tmp))
        = applyOps (applyOp fs (FsOp.app tmp b)) (rest.map (FsOp.app tmp)) from rfl]
    have h2 : getKV (applyOp fs (FsOp.app tmp b)) tmp = some (acc ++ b) := by
      simp only [applyOp, h, getKV_setKV]
      simp
    rw [ih _ (acc ++ b) h2]
    simp

/-- Claim C3: the differing-entry write of `extractDiff` is an atomic
replace. The new content is written in chunks to a temp file in the
scratch area, the file is closed, and a single atomic rename installs it
over the destination. At every proper prefix of the operation sequence —
i.e. if the process is terminated at any point before the rename — the
destination path still holds exactly its old content; after the full
sequence it holds exactly the complete new content; and no path other
than the temp file is otherwise disturbed, so the net effect is the
single-map update used by `extractDiff`. A destination is never observed
with partial content. -/
theorem atomicReplace (fs : FS) (tmp path : String) (chunks : List Bytes)
    (hne : tmp ≠ path) :
    (∀ pre suf, writeSeq tmp path chunks = pre ++ suf → suf ≠ [] →
        getKV (applyOps fs pre) path = getKV fs path)
    ∧ getKV (applyOps fs (writeSeq tmp path chunks)) path = some chunks.flatten
    ∧ (∀ q, q ≠ tmp →
        getKV (applyOps fs (writeSeq tmp path chunks)) q
          = getKV (setKV fs path chunks.flatten) q) := by
  have hpathne : path ≠ tmp := fun h => hne h.symm
  have h1 : applyOps fs (writeSeq tmp path chunks)
      = applyOp (applyOp (applyOps (applyOp fs (FsOp.create tmp)) (chunks.map (FsOp.app tmp)))
          (FsOp.close tmp)) (FsOp.rename tmp path) := by
    simp only [writeSeq, applyOps, List.foldl_cons, List.foldl_append, List.foldl_nil]
  have hM : getKV (applyOps (setKV fs tmp []) (chunks.map (FsOp.app tmp))) tmp
      = some chunks.flatten := by
    have := applyOps_app_content tmp chunks (setKV fs tmp []) []
      (by rw [getKV_setKV, if_pos rfl])
    simpa using this
  have hMfr : ∀ q, q ≠ tmp →
      getKV (applyOps (setKV fs tmp []) (chunks.map (FsOp.app tmp))) q = getKV fs q := by
    intro q hq
    rw [getKV_applyOps_tmpOnly tmp q hq (chunks.map (FsOp.app tmp)) (setKV fs tmp [])
      (by intro op hop
          rw [List.mem_map] at hop
          obtain ⟨b, _, hb⟩ := hop
          exact Or.inr (Or.inl ⟨b, hb.symm⟩))]
    rw [getKV_setKV]
    rw [if_neg (fun hh => hq hh.symm)]
  have hfinal : applyOps fs (writeSeq tmp path chunks)
      = setKV (eraseKV (applyOps (setKV fs tmp []) (chunks.map (FsOp.app tmp))) tmp)
          path chunks.flatten := by
    rw [h1]
    show applyOp (applyOps (setKV fs tmp []) (chunks.map (FsOp.app tmp)))
        (FsOp.rename tmp path) = _
    simp only [applyOp, hM]
  refine ⟨?_, ?_, ?_⟩
  · intro pre suf hsplit hsuf
    cases pre with
    | nil => rfl
    | cons op pre2 =>
      rw [writeSeq, List.cons_append] at hsplit
      have hop : op = FsOp.create tmp := (List.cons.injEq _ _ _ _ ▸ hsplit).1.symm
      have h2 : chunks.map (FsOp.app tmp) ++ [FsOp.close tmp, FsOp.rename tmp path]
          = pre2 ++ suf := (List.cons.injEq _ _ _ _ ▸ hsplit).2
      have hlen : pre2.length ≤ (chunks.map (FsOp.app tmp)).length + 1 := by
        have hl := congrArg List.length h2
        rw [List.length_append, List.length_append] at hl
        have : 1 ≤ suf.length := List.length_pos.mpr hsuf
        simp at hl
        simp only [List.length_map]
        omega
      have hpre2 : pre2 = ((chunks.map (FsOp.app tmp)) ++ [FsOp.close tmp]).take pre2.length := by
        have ha : pre2 = (pre2 ++ suf).take pre2.length := (List.take_left pre2 suf).symm
        rw [← h2] at ha
        rw [show chunks.map (FsOp.app tmp) ++ [FsOp.close tmp, FsOp.rename tmp path]
            = ((chunks.map (FsOp.app tmp)) ++ [FsOp.close tmp]) ++ [FsOp.rename tmp path]
          by simp] at ha
        rw [List.take_append_of_le_length (by simpa using hlen)] at ha
        exact ha
      have hmem : ∀ x ∈ pre2,
          x = FsOp.create tmp ∨ (∃ b, x = FsOp.app tmp b) ∨ x = FsOp.close tmp := by
        intro x hx
        rw [hpre2] at hx
        have hx2 := List.take_subset _ _ hx
        rw [List.mem_append] at hx2
        rcases hx2 with hxm | hxc
        · rw [List.mem_map] at hxm
          obtain ⟨b, _, hb⟩ := hxm
          exact Or.inr (Or.inl ⟨b, hb.symm⟩)
        · simp at hxc
          exact Or.inr (Or.inr hxc)
      subst hop
      rw [show applyOps fs (FsOp.create tmp :: pre2)
          = applyOps (applyOp fs (FsOp.create tmp)) pre2 from rfl]
      rw [show applyOp fs (FsOp.create tmp) = setKV fs tmp [] from rfl]
      rw [getKV_applyOps_tmpOnly tmp path hpathne pre2 (setKV fs tmp []) hmem]
      rw [getKV_setKV]
      rw [if_neg hne]
  · rw [hfinal, getKV_setKV, if_pos rfl]
  · intro q hq
    rw [hfinal, getKV_setKV, getKV_setKV]
    by_cases hpq : path = q
    · rw [if_pos hpq, if_pos hpq]
    · rw [if_neg hpq, if_neg hpq]
      rw [getKV_eraseKV _ _ _ hq]
      exact hMfr q hq

/-- Claim C3 witness: writing content chunks `[1]` then `[2, 3]` through
the temp file `tmp/extract-1`: stopping after the create, after the
first chunk, after both chunks, or after the close leaves the
destination at its old content `[9]`; the full sequence installs
`[1, 2, 3]`. -/
theorem atomicReplace_witness :
    getKV (applyOps [("/d/a", [9])]
        [FsOp.create ("tmp/extract-1"), FsOp.app ("tmp/extract-1") [1],
         FsOp.app ("tmp/extract-1") [2, 3], FsOp.close ("tmp/extract-1")]) ("/d/a") = some [9]
    ∧ getKV (applyOps [("/d/a", [9])] (writeSeq ("tmp/extract-1") ("/d/a") [[1], [2, 3]]))
        ("/d/a") = some [1, 2, 3] := by
  constructor
  · exact (atomicReplace [("/d/a", [9])] ("tmp/extract-1") ("/d/a") [[1], [2, 3]]
      (by decide)).1
      [FsOp.create ("tmp/extract-1"), FsOp.app ("tmp/extract-1") [1],
       FsOp.app ("tmp/extract-1") [2, 3], FsOp.close ("tmp/extract-1")]
      [FsOp.rename ("tmp/extract-1") ("/d/a")] (by rfl) (by simp)
  · exact (atomicReplace [("/d/a", [9])] ("tmp/extract-1") ("/d/a") [[1], [2, 3]]
      (by decide)).2.1

/-- Claim C1 counterexample: `runJob` marks the ledger *before*
downloading the artifact (source line 115 precedes line 117). With a
successful listing of a new version and a download that fails with a
transport error, the ledger entry is mutated — it now carries the new
timestamp even though the artifact was never retrieved, so the same
version is not retried next cycle. -/
theorem ledgerMutatedOnDownloadFailure_cex :
    runJob idFp jobD envDownloadFail [] []
      = ([("o.r.app", 5)], [], .errorLogged ("connection reset"))
    ∧ envDownloadFail.download = .error ("connection reset")
    ∧ ([("o.r.app", 5)] : Ledger) ≠ ([] : Ledger) := by
  exact ⟨by rfl, by rfl, by decide⟩

/-- Claim C1 (amended): a Job's ledger entry is updated after the
artifact listing succeeds with a new version but *before* the artifact
is downloaded. A listing failure mutates no state (ledger and filesystem
unchanged, job retried next cycle); once the listing reports a timestamp
different from the ledger entry and persistence succeeds, the ledger
carries the new timestamp regardless of whether the download succeeds
or fails — a failed download is therefore not retried next cycle. -/
theorem ledgerMarkedBeforeDownload (fp : Bytes → Bytes) (j : Job) (env : RunEnv)
    (ledger : Ledger) (fs : FS) :
    (∀ e, env.listing = .error e → runJob fp j env ledger fs = (ledger, fs, .errorLogged e))
    ∧ (∀ a, env.listing = .ok a → a.createdAt ≠ ledgerGet ledger (jobKey j) →
        env.saveErr = none →
        (runJob fp j env ledger fs).1 = setKV ledger (jobKey j) a.createdAt) := by
  constructor
  · intro e he
    simp [runJob, he]
  · intro a ha hts hsv
    simp only [runJob, ha, markUpdate, hsv]
    rw [if_neg hts]
    cases env.download with
    | error e => rfl
    | ok u =>
      cases hu : unzipDiff fp env.archive j.deployPath j.excludes fs with
      | error e => simp [hu]
      | ok pr =>
        cases pr
        simp [hu]

/-- Claim C1 witness: a listing transport error leaves ledger and
filesystem untouched; a successful listing of version 5 with a failing
download still sets the ledger entry to 5. -/
theorem ledgerMarkedBeforeDownload_witness :
    runJob idFp jobD envListFail [] [] = ([], [], .errorLogged ("timeout"))
    ∧ (runJob idFp jobD envDownloadFail [] []).1 = setKV [] (jobKey jobD) 5 := by
  constructor
  · exact (ledgerMarkedBeforeDownload idFp jobD envListFail [] []).1 ("timeout") (by rfl)
  · exact (ledgerMarkedBeforeDownload idFp jobD envDownloadFail [] []).2 artifactV5
      (by rfl) (by decide) (by rfl)

/-- Claim C10: a failure to persist the updated ledger inside
`markUpdate` is `log.Fatal` — the whole process terminates, not merely
the current entry or job; likewise any failure to load the secrets, the
jobs or the ledger at startup refuses to start the process. -/
theorem ledgerPersistFatal (fp : Bytes → Bytes) (j : Job) (env : RunEnv)
    (ledger : Ledger) (fs : FS) :
    (∀ a e, env.listing = .ok a → a.createdAt ≠ ledgerGet ledger (jobKey j) →
        env.saveErr = some e →
        runJob fp j env ledger fs = (setKV ledger (jobKey j) a.createdAt, fs, .fatal e))
    ∧ (∀ e jl ll, initProcess (.error e) jl ll = .error e)
    ∧ (∀ sl e ll, initProcess (.ok sl) (.error e) ll = .error e)
    ∧ (∀ sl jl e, initProcess (.ok sl) (.ok jl) (.error e) = .error e) := by
  refine ⟨?_, fun e jl ll => rfl, fun sl e ll => rfl, fun sl jl e => rfl⟩
  intro a e ha hts hsv
  simp only [runJob, ha, markUpdate, hsv]
  rw [if_neg hts]

/-- Claim C10 witness: with a new version 5 and a failing `saveJSON`,
`runJob` ends in `fatal`; a failing secrets load refuses startup. -/
theorem ledgerPersistFatal_witness :
    runJob idFp jobD envSaveFail [] [] = ([("o.r.app", 5)], [], .fatal ("disk full"))
    ∧ initProcess (.error ("missing secret.json")) (.ok [jobD]) (.ok [])
        = .error ("missing secret.json") := by
  constructor
  · exact (ledgerPersistFatal idFp jobD envSaveFail [] []).1 artifactV5 ("disk full")
      (by rfl) (by decide) (by rfl)
  · exact (ledgerPersistFatal idFp jobD envSaveFail [] []).2.1 ("missing secret.json")
      (.ok [jobD]) (.ok [])
